import Mathlib

/-
Verification development for the ffmpeg album splitter
(`main.py`: timestamp codec, silence report parsing, sound boundary
reconciliation, track clustering).

Python strings are modelled as `List Char`; Python floats are modelled as
exact rationals (`ℚ`); Python exceptions are modelled with `Except PyError`.
-/

/-- Exceptions that the modelled Python code can raise. -/
inductive PyError where
  | assertionError
  | valueError
  | indexError
  | zeroDivisionError
  deriving DecidableEq, Repr

instance {ε α : Type} [DecidableEq ε] [DecidableEq α] : DecidableEq (Except ε α)
  | .ok a, .ok b => decidable_of_iff (a = b) ⟨fun h => h ▸ rfl, fun h => by injection h⟩
  | .ok _, .error _ => isFalse (fun h => by injection h)
  | .error _, .ok _ => isFalse (fun h => by injection h)
  | .error a, .error b => decidable_of_iff (a = b) ⟨fun h => h ▸ rfl, fun h => by injection h⟩

set_option allowUnsafeReducibility true
set_option maxRecDepth 100000

attribute [semireducible] Rat.mul Rat.add Rat.sub Rat.div Rat.neg Rat.inv Rat.blt

/-- Whitespace characters stripped by Python's `str.strip()`. -/
def isPyWs (c : Char) : Bool :=
  c = ' ' || c = '\t' || c = '\n' || c = '\r' || c = '\x0b' || c = '\x0c'

/-- Model of Python's `str.strip()`: drop whitespace from both ends. -/
def pyStrip (l : List Char) : List Char :=
  ((l.dropWhile isPyWs).reverse.dropWhile isPyWs).reverse

/-- Model of Python's `str.split(sep)` for a single-character separator:
splits at every occurrence, keeping empty fields; the result is never empty. -/
def splitChar (sep : Char) : List Char → List (List Char)
  | [] => [[]]
  | c :: rest =>
    match splitChar sep rest with
    | [] => [[]]
    | g :: gs => if c = sep then [] :: g :: gs else (c :: g) :: gs

/-- Decimal digit as a character, used to model Python's number formatting. -/
def digitChar : ℕ → Char
  | 0 => '0' | 1 => '1' | 2 => '2' | 3 => '3' | 4 => '4'
  | 5 => '5' | 6 => '6' | 7 => '7' | 8 => '8' | _ => '9'

def isDigitChar (c : Char) : Bool :=
  48 ≤ c.toNat && c.toNat ≤ 57

def digitVal (c : Char) : ℕ := c.toNat - 48

/-- Value of a digit string read left to right. -/
def digitsVal (l : List Char) : ℕ :=
  l.foldl (fun a c => 10 * a + digitVal c) 0

/-- Parse a nonempty all-digit string; `none` models Python's `ValueError`. -/
def parseDigits (l : List Char) : Option ℕ :=
  if !l.isEmpty && l.all isDigitChar then some (digitsVal l) else none

/-- Fuel-driven digit printer (structural recursion so the kernel can
evaluate it); `fuel > n` always suffices. -/
def natCharsFuel : ℕ → ℕ → List Char → List Char
  | 0, _, acc => acc
  | fuel + 1, n, acc =>
    if n < 10 then digitChar n :: acc
    else natCharsFuel fuel (n / 10) (digitChar (n % 10) :: acc)

/-- Decimal digit characters of `n`, most significant first (Python `str(n)`). -/
def natChars (n : ℕ) : List Char := natCharsFuel (n + 1) n []

/-- Model of Python's `int(s)` on the strings this program feeds it. -/
def pyInt (s : List Char) : Option ℤ :=
  let t := pyStrip s
  if t.headD ' ' = '-' then (parseDigits (t.drop 1)).map (fun n => -(n : ℤ))
  else if t.headD ' ' = '+' then (parseDigits (t.drop 1)).map (fun n => (n : ℤ))
  else (parseDigits t).map (fun n => (n : ℤ))

def pyFloatCore (u : List Char) (sgn : ℚ) : Option ℚ :=
  match splitChar '.' u with
  | [ip] => (parseDigits ip).map (fun n => sgn * (n : ℚ))
  | [ip, fp] =>
    if ip.isEmpty && fp.isEmpty then none
    else
      match (if ip.isEmpty then some 0 else parseDigits ip),
            (if fp.isEmpty then some 0 else parseDigits fp) with
      | some a, some b => some (sgn * ((a : ℚ) + (b : ℚ) / (10 : ℚ) ^ fp.length))
      | _, _ => none
  | _ => none

/-- Model of Python's `float(s)` on the plain decimal literals appearing in
silence reports (optional sign, digits, optional fractional part); `none`
models `ValueError`. -/
def pyFloat (s : List Char) : Option ℚ :=
  let t := pyStrip s
  if t.headD ' ' = '-' then pyFloatCore (t.drop 1) (-1)
  else if t.headD ' ' = '+' then pyFloatCore (t.drop 1) 1
  else pyFloatCore t 1

/-- Model of Python's `int(x)` on a float: truncation toward zero. -/
def pyTrunc (q : ℚ) : ℤ :=
  if 0 ≤ q then ⌊q⌋ else -⌊-q⌋

/-- Model of Python's float `%` for a positive modulus (floored modulo). -/
def pyFloatMod (a b : ℚ) : ℚ := a - b * ⌊a / b⌋

/-- Zero-pad a natural number to (at least) two digits, as `"{:02}"` does. -/
def pad2 (n : ℕ) : List Char :=
  if n < 10 then '0' :: natChars n else natChars n

/-- Model of Python's `"{:02}".format(i)` for an integer. -/
def intFormat02 (i : ℤ) : List Char :=
  if i < 0 then '-' :: natChars i.natAbs else pad2 i.toNat

/-- Source `timestamp_to_seconds`: given `"[[HH:]MM:]SS[.frac]"` text, the
time in seconds; fields are taken from the end of the `':'`-split. -/
def timestamp_to_seconds (ts : List Char) : Option ℚ :=
  match (splitChar ':' ts).reverse with
  | [] => none
  | p0 :: rest =>
    match pyFloat p0 with
    | none => none
    | some s =>
      match rest with
      | [] => some s
      | p1 :: rest2 =>
        match pyInt p1 with
        | none => none
        | some m =>
          match rest2 with
          | [] => some (s + (m : ℚ) * 60)
          | p2 :: _ =>
            match pyInt p2 with
            | none => none
            | some h => some (s + (m : ℚ) * 60 + (h : ℚ) * 60 * 60)

/-- Source `format_time_from_seconds`: renders `"HH:MM:SS.CC"` with each field
computed by truncation exactly as the Python code does. -/
def format_time_from_seconds (t : ℚ) : List Char :=
  let hours := pyTrunc (t / (60 * 60))
  let minutes := pyTrunc (t / 60) % 60
  let seconds := pyTrunc (pyFloatMod t 60)
  let milliseconds := pyTrunc ((t - (pyTrunc t : ℚ)) * 100)
  intFormat02 hours ++ ':' :: intFormat02 minutes ++ ':' :: intFormat02 seconds
    ++ '.' :: intFormat02 milliseconds

/-
Silence report parsing (`get_sound_boundaries`, first loop of the source).
-/

/-- One parsed silencedetect line: the source's loosely-typed
`Interval(start, end, duration)` record always has either only `start`
set (a `silence_start` line) or only `end`/`duration` set (a
`silence_end` line), so it is modelled as a tagged variant. -/
inductive SilenceEvent where
  | start (t : ℚ)
  | end_ (t d : ℚ)
  deriving DecidableEq, Repr

/-- Value of the record's `start` field (`none` models Python `None`). -/
def startField : SilenceEvent → Option ℚ
  | .start t => some t
  | .end_ _ _ => none

/-- Value of the record's `end` field. -/
def endField : SilenceEvent → Option ℚ
  | .start _ => none
  | .end_ t _ => some t

/-- Python truthiness of an optional float: `None` and `0.0` are falsy. -/
def pyTruthy : Option ℚ → Bool
  | none => false
  | some x => x ≠ 0

/-- State of the source's line loop: `interval_data`, `file_start`, `file_end`. -/
structure PState where
  intervals : List SilenceEvent
  file_start : Option ℚ
  file_end : Option ℚ
  deriving DecidableEq, Repr

/-- Model of Python's substring test `pat in line`. -/
def listContains (pat : List Char) : List Char → Bool
  | [] => pat.isEmpty
  | c :: rest => pat.isPrefixOf (c :: rest) || listContains pat rest

def isDurationLine (line : List Char) : Bool :=
  (("Duration").data).isPrefixOf line

/-- Duration value a `Duration` header line yields:
`timestamp_to_seconds(line.split(',')[0].split(' ')[1])`. -/
def durationField (line : List Char) : Option ℚ :=
  match ((splitChar ' ' ((splitChar ',' line).headD []))[1]?) with
  | none => none
  | some d => timestamp_to_seconds d

/-- Source line loop body: classify one (stripped) report line and update the
parse state; errors model the exceptions the Python line would raise. -/
def processLine (st : PState) (raw : List Char) : Except PyError PState :=
  let line := pyStrip raw
  if (("[silencedetect").data).isPrefixOf line then
    if listContains (("silence_start").data) line then
      match (splitChar ':' line)[1]? with
      | none => .error .indexError
      | some p =>
        match pyFloat p with
        | none => .error .valueError
        | some v => .ok { st with intervals := st.intervals ++ [.start v] }
    else if listContains (("silence_end").data) line then
      let temp_split := splitChar '|' line
      match (splitChar ':' (temp_split.headD []))[1]? with
      | none => .error .indexError
      | some pe =>
        match pyFloat pe with
        | none => .error .valueError
        | some e =>
          match temp_split[1]? with
          | none => .error .indexError
          | some td =>
            match (splitChar ':' td)[1]? with
            | none => .error .indexError
            | some pd =>
              match pyFloat pd with
              | none => .error .valueError
              | some d => .ok { st with intervals := st.intervals ++ [.end_ e d] }
    else .error .assertionError
  else if isDurationLine line then
    match (splitChar ',' line)[1]? with
    | none => .error .indexError
    | some temp_start =>
      match durationField line with
      | none => .error .valueError
      | some fe =>
        match (splitChar ':' temp_start)[1]? with
        | none => .error .indexError
        | some ps =>
          match pyFloat ps with
          | none => .error .valueError
          | some fs => .ok { st with file_end := some fe, file_start := some fs }
  else .ok st

/-- Run the line loop over a list of raw lines. -/
def processLines (st : PState) : List (List Char) → Except PyError PState
  | [] => .ok st
  | l :: ls =>
    match processLine st l with
    | .error e => .error e
    | .ok st1 => processLines st1 ls

/-- Model of Python's `bytes.splitlines` for newline-separated text. -/
def pySplitLines (text : List Char) : List (List Char) :=
  let r := splitChar '\n' text
  if r.getLastD [] = [] then r.dropLast else r

/-
Sound boundary reconciliation (`get_sound_boundaries`, second loop).
-/

/-- State of the source's reconciliation loop: `sound_boundaries`,
`previous_silence_start`, `previous_silence_end`. A boundary's first
component is `Option ℚ` because the source can place `None` there. -/
structure RecState where
  bounds : List (Option ℚ × ℚ)
  prevStart : Option ℚ
  prevEnd : Option ℚ
  deriving DecidableEq, Repr

/-- One iteration of the reconciliation loop at index `i` of `n` events. -/
def rstep (n : ℕ) (fileEnd : ℚ) (st : RecState) (i : ℕ) (ev : SilenceEvent) : RecState :=
  let st1 :=
    if i = 0 then
      { st with bounds := st.bounds ++ [(some 0, (startField ev).getD 0)] }
    else if i = n - 1 then
      if endField ev = none then
        { st with bounds := st.bounds ++ [(st.prevEnd, fileEnd)] }
      else st
    else
      if pyTruthy (startField ev) then
        { st with bounds := st.bounds ++ [(st.prevEnd, (startField ev).getD 0)] }
      else st
  if pyTruthy (startField ev) then { st1 with prevStart := startField ev }
  else if pyTruthy (endField ev) then { st1 with prevEnd := endField ev }
  else st1

/-- The reconciliation loop from index `i` on. -/
def rloop (n : ℕ) (fileEnd : ℚ) : ℕ → RecState → List SilenceEvent → RecState
  | _, st, [] => st
  | i, st, e :: es => rloop n fileEnd (i + 1) (rstep n fileEnd st i e) es

/-- Second half of source `get_sound_boundaries`: turn the event list into
sound boundaries. The `assert interval.start is not None` of the source can
only fire at index 0, so it is modelled as a guard on the first event. -/
def reconcile (events : List SilenceEvent) (fileEnd : ℚ) :
    Except PyError (List (Option ℚ × ℚ)) :=
  match events with
  | [] => .ok []
  | e :: _ =>
    if startField e = none then .error .assertionError
    else .ok (rloop events.length fileEnd 0 ⟨[], none, none⟩ events).bounds

/-- Source `get_sound_boundaries`: parse the report text, require the
duration header, then reconcile events into sound boundaries. -/
def get_sound_boundaries (silence_data : List Char) :
    Except PyError (List (Option ℚ × ℚ)) :=
  match processLines ⟨[], none, none⟩ (pySplitLines silence_data) with
  | .error e => .error e
  | .ok st =>
    match st.file_start, st.file_end with
    | some _, some fe => reconcile st.intervals fe
    | _, _ => .error .assertionError

/-
Track clustering (`find_tracks`).
-/

/-- Source `average_midsound_silence`:
`sum(next.start - cur.end over consecutive pairs) / len(sound_boundaries)`. -/
def average_midsound_silence (sound_boundaries : List (ℚ × ℚ)) : ℚ :=
  (((sound_boundaries.zip sound_boundaries.tail).map
    (fun x => x.2.1 - x.1.2)).sum) / (sound_boundaries.length : ℚ)

/-- State of the clustering loop: `track_boundaries`, `track_start`, `track_end`. -/
structure TState where
  bounds : List (ℚ × ℚ)
  track_start : ℚ
  track_end : ℚ
  deriving DecidableEq, Repr

/-- One iteration of the clustering loop over a sound boundary. -/
def tstep (thr : ℚ) (st : TState) (b : ℚ × ℚ) : TState :=
  let track_gap := b.1 - st.track_end
  if thr < track_gap then
    { bounds := st.bounds ++ [(st.track_start, st.track_end + track_gap / 2)],
      track_start := b.1 - track_gap / 2,
      track_end := b.2 }
  else
    { st with track_end := b.2 }

/-- Source `find_tracks`: an empty input raises `ZeroDivisionError` (the gap
sum is divided by the length); when no split ever happens the function
returns Python `None` (modelled `none`); otherwise the remainder track is
appended whenever the last stored boundary stops short of `track_end`. -/
def find_tracks (sound_boundaries : List (ℚ × ℚ)) (gap_multiplier : ℚ) :
    Except PyError (Option (List (ℚ × ℚ))) :=
  match sound_boundaries with
  | [] => .error .zeroDivisionError
  | b0 :: _ =>
    let thr := average_midsound_silence sound_boundaries * gap_multiplier
    let st := sound_boundaries.foldl (tstep thr) ⟨[], b0.1, b0.2⟩
    if h : st.bounds = [] then .ok none
    else
      .ok (some (if (st.bounds.getLast h).2 < st.track_end then
                   st.bounds ++ [((st.bounds.getLast h).2, st.track_end)]
                 else st.bounds))

/-
Helper notions used to state and prove properties of the code above.
-/

/-- Gaps between consecutive intervals, given the running previous end `e`. -/
def gapsFrom (e : ℚ) : List (ℚ × ℚ) → List ℚ
  | [] => []
  | b :: l => (b.1 - e) :: gapsFrom b.2 l

/-- End of the last interval, with default `e` for an empty list. -/
def lastEnd (e : ℚ) : List (ℚ × ℚ) → ℚ
  | [] => e
  | b :: l => lastEnd b.2 l

/-- The intervals are proper (`start ≤ end`) and chronologically ordered
with no overlap, starting no earlier than `e`. -/
def SortedFrom (e : ℚ) : List (ℚ × ℚ) → Prop
  | [] => True
  | b :: l => e ≤ b.1 ∧ b.1 ≤ b.2 ∧ SortedFrom b.2 l

instance instDecSortedFrom : (e : ℚ) → (l : List (ℚ × ℚ)) → Decidable (SortedFrom e l)
  | _, [] => .isTrue trivial
  | e, b :: l =>
    haveI := instDecSortedFrom b.2 l
    decidable_of_iff (e ≤ b.1 ∧ b.1 ≤ b.2 ∧ SortedFrom b.2 l) Iff.rfl

/-- A well-formed sound-interval sequence: proper, ordered, non-overlapping. -/
def WfIntervals : List (ℚ × ℚ) → Prop
  | [] => True
  | b :: l => b.1 ≤ b.2 ∧ SortedFrom b.2 l

instance instDecWfIntervals : (l : List (ℚ × ℚ)) → Decidable (WfIntervals l)
  | [] => .isTrue trivial
  | b :: l => decidable_of_iff (b.1 ≤ b.2 ∧ SortedFrom b.2 l) Iff.rfl

/-- The track list `l` is contiguous: it starts at `a`, each entry starts
where the previous one ended, and it ends at `c` (for `[]`, `a = c`). -/
def ContigFrom (a : ℚ) : List (ℚ × ℚ) → ℚ → Prop
  | [], c => a = c
  | b :: l, c => b.1 = a ∧ ContigFrom b.2 l c

instance instDecContigFrom : (a : ℚ) → (l : List (ℚ × ℚ)) → (c : ℚ) →
    Decidable (ContigFrom a l c)
  | a, [], c => decidable_of_iff (a = c) Iff.rfl
  | a, b :: l, c =>
    haveI := instDecContigFrom b.2 l c
    decidable_of_iff (b.1 = a ∧ ContigFrom b.2 l c) Iff.rfl

/-- Number of tracks of a clustering outcome (`None` or an error yield 0). -/
def numTracks : Except PyError (Option (List (ℚ × ℚ))) → ℕ
  | .ok (some l) => l.length
  | _ => 0

/-- Whether the reconciliation loop updates `previous_silence_end` on this
event (only an `End` event with nonzero, hence truthy, time does). -/
def updatesPrevEnd (e : SilenceEvent) : Bool :=
  !(pyTruthy (startField e)) && pyTruthy (endField e)

/-
Lemmas about digit printing and parsing.
-/

theorem natCharsFuel_irrel : ∀ (f1 f2 n : ℕ) (acc : List Char), n < f1 → n < f2 →
    natCharsFuel f1 n acc = natCharsFuel f2 n acc := by
  intro f1
  induction f1 with
  | zero => intro f2 n acc h1 _; omega
  | succ g ih =>
    intro f2 n acc h1 h2
    match f2 with
    | 0 => omega
    | f2' + 1 =>
      simp only [natCharsFuel]
      by_cases hn : n < 10
      · simp [hn]
      · simp only [if_neg hn]
        exact ih f2' (n / 10) _ (by omega) (by omega)

theorem natChars_lt10 (n : ℕ) (hn : n < 10) : natChars n = [digitChar n] := by
  simp [natChars, natCharsFuel, hn]

theorem natCharsFuel_acc : ∀ (f n : ℕ) (acc : List Char), n < f →
    natCharsFuel f n acc = natChars n ++ acc := by
  intro f
  induction f with
  | zero => intro n acc h; omega
  | succ g ih =>
    intro n acc h
    simp only [natCharsFuel]
    by_cases hn : n < 10
    · simp [hn, natChars_lt10 n hn]
    · simp only [if_neg hn]
      rw [ih (n / 10) _ (by omega)]
      have hstep : natChars n = natChars (n / 10) ++ [digitChar (n % 10)] := by
        show natCharsFuel (n + 1) n [] = _
        simp only [natCharsFuel, if_neg hn]
        rw [natCharsFuel_irrel n g (n / 10) _ (by omega) (by omega)]
        exact ih (n / 10) _ (by omega)
      rw [hstep, List.append_assoc, List.singleton_append]

theorem natChars_step (n : ℕ) (hn : ¬ n < 10) :
    natChars n = natChars (n / 10) ++ [digitChar (n % 10)] := by
  show natCharsFuel (n + 1) n [] = _
  simp only [natCharsFuel, if_neg hn]
  exact natCharsFuel_acc n (n / 10) _ (by omega)

theorem digitChar_isDigit (d : ℕ) : isDigitChar (digitChar d) = true := by
  rcases d with _|_|_|_|_|_|_|_|_|d <;> rfl

theorem digitVal_digitChar (d : ℕ) (h : d < 10) : digitVal (digitChar d) = d := by
  interval_cases d <;> rfl

theorem natChars_all_digits (n : ℕ) : ∀ c ∈ natChars n, isDigitChar c = true := by
  induction n using Nat.strong_induction_on with
  | _ n ih =>
    by_cases hn : n < 10
    · rw [natChars_lt10 n hn]
      simp [digitChar_isDigit]
    · rw [natChars_step n hn]
      intro c hc
      rcases List.mem_append.mp hc with h | h
      · exact ih (n / 10) (by omega) c h
      · rw [List.mem_singleton.mp h]
        exact digitChar_isDigit _

theorem natChars_ne_nil (n : ℕ) : natChars n ≠ [] := by
  by_cases hn : n < 10
  · rw [natChars_lt10 n hn]; simp
  · rw [natChars_step n hn]; simp

theorem digitsVal_snoc (a : List Char) (c : Char) :
    digitsVal (a ++ [c]) = 10 * digitsVal a + digitVal c := by
  simp [digitsVal, List.foldl_append]

theorem digitsVal_natChars (n : ℕ) : digitsVal (natChars n) = n := by
  induction n using Nat.strong_induction_on with
  | _ n ih =>
    by_cases hn : n < 10
    · rw [natChars_lt10 n hn]
      show 10 * 0 + digitVal (digitChar n) = n
      rw [digitVal_digitChar n hn]
      omega
    · rw [natChars_step n hn, digitsVal_snoc, ih (n / 10) (by omega),
        digitVal_digitChar _ (by omega)]
      omega

theorem parseDigits_of_digits (l : List Char) (hne : l ≠ [])
    (hd : ∀ c ∈ l, isDigitChar c = true) : parseDigits l = some (digitsVal l) := by
  have h1 : !l.isEmpty = true := by simpa [List.isEmpty_iff] using hne
  have h2 : l.all isDigitChar = true := List.all_eq_true.mpr hd
  simp [parseDigits, h1, h2, hne]

theorem parseDigits_natChars (n : ℕ) : parseDigits (natChars n) = some n := by
  rw [parseDigits_of_digits _ (natChars_ne_nil n) (natChars_all_digits n),
    digitsVal_natChars]

theorem pad2_all_digits (n : ℕ) : ∀ c ∈ pad2 n, isDigitChar c = true := by
  unfold pad2
  by_cases hn : n < 10
  · simp only [if_pos hn]
    intro c hc
    rcases List.mem_cons.mp hc with h | h
    · rw [h]; rfl
    · exact natChars_all_digits n c h
  · simp only [if_neg hn]
    exact natChars_all_digits n

theorem pad2_ne_nil (n : ℕ) : pad2 n ≠ [] := by
  unfold pad2
  by_cases hn : n < 10
  · simp [hn]
  · simp [hn, natChars_ne_nil]

theorem digitsVal_pad2 (n : ℕ) : digitsVal (pad2 n) = n := by
  unfold pad2
  by_cases hn : n < 10
  · simp only [if_pos hn]
    show digitsVal (natChars n) = n
    exact digitsVal_natChars n
  · simp only [if_neg hn]
    exact digitsVal_natChars n

theorem parseDigits_pad2 (n : ℕ) : parseDigits (pad2 n) = some n := by
  rw [parseDigits_of_digits _ (pad2_ne_nil n) (pad2_all_digits n), digitsVal_pad2]

theorem pad2_length (n : ℕ) (h : n < 100) : (pad2 n).length = 2 := by
  unfold pad2
  by_cases hn : n < 10
  · simp [hn, natChars_lt10 n hn]
  · simp only [if_neg hn]
    rw [natChars_step n hn, natChars_lt10 (n / 10) (by omega)]
    simp

theorem isDigitChar_ne_colon {c : Char} (h : isDigitChar c = true) : c ≠ ':' := by
  intro hc; rw [hc] at h; exact absurd h (by decide)

theorem isDigitChar_ne_dot {c : Char} (h : isDigitChar c = true) : c ≠ '.' := by
  intro hc; rw [hc] at h; exact absurd h (by decide)

theorem isDigitChar_ne_dash {c : Char} (h : isDigitChar c = true) : c ≠ '-' := by
  intro hc; rw [hc] at h; exact absurd h (by decide)

theorem isDigitChar_ne_plus {c : Char} (h : isDigitChar c = true) : c ≠ '+' := by
  intro hc; rw [hc] at h; exact absurd h (by decide)

theorem isDigitChar_not_ws {c : Char} (h : isDigitChar c = true) : isPyWs c = false := by
  by_contra hw
  have hw' : isPyWs c = true := by
    cases hws : isPyWs c
    · exact absurd hws hw
    · rfl
  simp only [isPyWs, Bool.or_eq_true, decide_eq_true_eq] at hw'
  rcases hw' with ((((h1 | h1) | h1) | h1) | h1) | h1 <;>
    (rw [h1] at h; exact absurd h (by decide))

/-
Lemmas about splitting and stripping.
-/

theorem splitChar_ne_nil (sep : Char) (l : List Char) : splitChar sep l ≠ [] := by
  induction l with
  | nil => simp [splitChar]
  | cons c rest ih =>
    simp only [splitChar]
    cases h : splitChar sep rest with
    | nil => exact absurd h ih
    | cons g gs =>
      by_cases hc : c = sep <;> simp [hc]

theorem splitChar_no_sep (sep : Char) (l : List Char) (h : ∀ c ∈ l, c ≠ sep) :
    splitChar sep l = [l] := by
  induction l with
  | nil => rfl
  | cons c rest ih =>
    have hr : splitChar sep rest = [rest] := ih (fun x hx => h x (List.mem_cons_of_mem c hx))
    simp only [splitChar, hr]
    rw [if_neg (h c (List.mem_cons_self c rest))]

theorem splitChar_append (sep : Char) (a b : List Char) (h : ∀ c ∈ a, c ≠ sep) :
    splitChar sep (a ++ sep :: b) = a :: splitChar sep b := by
  induction a with
  | nil =>
    simp only [List.nil_append, splitChar]
    cases hb : splitChar sep b with
    | nil => exact absurd hb (splitChar_ne_nil sep b)
    | cons g gs => simp
  | cons c a' ih =>
    have ha' : splitChar sep (a' ++ sep :: b) = a' :: splitChar sep b :=
      ih (fun x hx => h x (List.mem_cons_of_mem c hx))
    have hc : ¬ c = sep := h c (List.mem_cons_self c a')
    simp only [List.cons_append, splitChar, List.append_eq, ha', if_neg hc]

theorem dropWhile_of_all_neg {p : Char → Bool} (l : List Char)
    (h : ∀ c ∈ l, p c = false) : l.dropWhile p = l := by
  cases l with
  | nil => rfl
  | cons c rest =>
    rw [List.dropWhile_cons_of_neg]
    rw [h c (List.mem_cons_self c rest)]
    simp

theorem pyStrip_of_no_ws (l : List Char) (h : ∀ c ∈ l, isPyWs c = false) :
    pyStrip l = l := by
  unfold pyStrip
  rw [dropWhile_of_all_neg l h,
    dropWhile_of_all_neg l.reverse (fun c hc => h c (List.mem_reverse.mp hc)),
    List.reverse_reverse]

/-
Round-trip lemmas for the timestamp codec.
-/

theorem pyInt_of_digits (l : List Char) (hne : l ≠ [])
    (hd : ∀ c ∈ l, isDigitChar c = true) : pyInt l = some (digitsVal l : ℤ) := by
  have hall : ∀ c ∈ l, isPyWs c = false := fun c hc => isDigitChar_not_ws (hd c hc)
  obtain ⟨c, l', rfl⟩ : ∃ c l', l = c :: l' := by
    cases l with
    | nil => exact absurd rfl hne
    | cons c l' => exact ⟨c, l', rfl⟩
  have hcd := hd c (List.mem_cons_self c l')
  simp only [pyInt, pyStrip_of_no_ws _ hall]
  rw [show (c :: l').headD ' ' = c from rfl,
    if_neg (isDigitChar_ne_dash hcd), if_neg (isDigitChar_ne_plus hcd),
    parseDigits_of_digits _ hne hd]
  rfl

theorem pyFloat_digit_pair (ip fp : List Char) (hipne : ip ≠ []) (hfpne : fp ≠ [])
    (hip : ∀ c ∈ ip, isDigitChar c = true) (hfp : ∀ c ∈ fp, isDigitChar c = true) :
    pyFloat (ip ++ '.' :: fp) =
      some ((digitsVal ip : ℚ) + (digitsVal fp : ℚ) / (10 : ℚ) ^ fp.length) := by
  have hall : ∀ c ∈ ip ++ '.' :: fp, isPyWs c = false := by
    intro c hc
    rcases List.mem_append.mp hc with h | h
    · exact isDigitChar_not_ws (hip c h)
    · rcases List.mem_cons.mp h with h | h
      · rw [h]; rfl
      · exact isDigitChar_not_ws (hfp c h)
  obtain ⟨c, ip', rfl⟩ : ∃ c ip', ip = c :: ip' := by
    cases ip with
    | nil => exact absurd rfl hipne
    | cons c ip' => exact ⟨c, ip', rfl⟩
  have hcd := hip c (List.mem_cons_self c ip')
  have hsplit : splitChar '.' ((c :: ip') ++ '.' :: fp) = [c :: ip', fp] := by
    rw [splitChar_append '.' _ _ (fun x hx => isDigitChar_ne_dot (hip x hx)),
      splitChar_no_sep '.' fp (fun x hx => isDigitChar_ne_dot (hfp x hx))]
  simp only [pyFloat, pyStrip_of_no_ws _ hall]
  rw [show ((c :: ip') ++ '.' :: fp).headD ' ' = c from rfl,
    if_neg (isDigitChar_ne_dash hcd), if_neg (isDigitChar_ne_plus hcd)]
  simp only [pyFloatCore, hsplit]
  rw [parseDigits_of_digits _ (List.cons_ne_nil c ip') hip,
    parseDigits_of_digits _ hfpne hfp]
  have h1 : (c :: ip').isEmpty = false := rfl
  have h2 : fp.isEmpty = false := by
    cases fp with
    | nil => exact absurd rfl hfpne
    | cons _ _ => rfl
  simp [h1, h2]

theorem intFormat02_of_nonneg (i : ℤ) (h : 0 ≤ i) : intFormat02 i = pad2 i.toNat := by
  unfold intFormat02
  rw [if_neg (not_lt.mpr h)]

theorem timestamp_of_format_fields (H M S C : ℕ) (hC : C < 100) :
    timestamp_to_seconds
      (pad2 H ++ ':' :: (pad2 M ++ ':' :: (pad2 S ++ '.' :: pad2 C))) =
      some ((S : ℚ) + (C : ℚ) / 100 + (M : ℚ) * 60 + (H : ℚ) * 60 * 60) := by
  have hcolon : ∀ (n : ℕ), ∀ c ∈ pad2 n, c ≠ ':' :=
    fun n c hc => isDigitChar_ne_colon (pad2_all_digits n c hc)
  have hlast : ∀ c ∈ pad2 S ++ '.' :: pad2 C, c ≠ ':' := by
    intro c hc
    rcases List.mem_append.mp hc with h | h
    · exact hcolon S c h
    · rcases List.mem_cons.mp h with h | h
      · rw [h]; decide
      · exact isDigitChar_ne_colon (pad2_all_digits C c h)
  have hsplit : splitChar ':'
      (pad2 H ++ ':' :: (pad2 M ++ ':' :: (pad2 S ++ '.' :: pad2 C))) =
      [pad2 H, pad2 M, pad2 S ++ '.' :: pad2 C] := by
    rw [splitChar_append ':' _ _ (hcolon H), splitChar_append ':' _ _ (hcolon M),
      splitChar_no_sep ':' _ hlast]
  simp only [timestamp_to_seconds, hsplit, List.reverse_cons, List.reverse_nil,
    List.nil_append, List.cons_append]
  rw [pyFloat_digit_pair (pad2 S) (pad2 C) (pad2_ne_nil S) (pad2_ne_nil C)
      (pad2_all_digits S) (pad2_all_digits C),
    pyInt_of_digits (pad2 M) (pad2_ne_nil M) (pad2_all_digits M),
    pyInt_of_digits (pad2 H) (pad2_ne_nil H) (pad2_all_digits H),
    digitsVal_pad2, digitsVal_pad2, digitsVal_pad2, digitsVal_pad2,
    pad2_length C hC]
  push_cast
  norm_num

/-- C9: for every timestamp value `t ≥ 0`, parsing the formatted text
(`timestamp_to_seconds (format_time_from_seconds t)`) yields a value within
0.01 seconds of `t`; the formatter truncates (never rounds) the fractional
part to two digits, so the parsed value never exceeds `t`. -/
theorem c9_parse_format_roundtrip (t : ℚ) (ht : 0 ≤ t) :
    ∃ r, timestamp_to_seconds (format_time_from_seconds t) = some r ∧
      |r - t| ≤ 1 / 100 := by
  have hfl : 0 ≤ ⌊t⌋ := Int.floor_nonneg.mpr ht
  set N : ℕ := ⌊t⌋.toNat with hNdef
  have hNZ : ⌊t⌋ = (N : ℤ) := (Int.toNat_of_nonneg hfl).symm
  have hNle : (N : ℚ) ≤ t := by
    have h := Int.floor_le t
    rw [hNZ] at h
    exact_mod_cast h
  have hNlt : t < (N : ℚ) + 1 := by
    have h := Int.lt_floor_add_one t
    rw [hNZ] at h
    exact_mod_cast h
  have hfl60 : ⌊t / 60⌋ = ((N / 60 : ℕ) : ℤ) := by
    rw [Int.floor_eq_iff]
    have h1 : ((((N / 60 : ℕ) : ℤ) : ℚ)) * 60 ≤ (N : ℚ) := by
      exact_mod_cast (by omega : N / 60 * 60 ≤ N)
    have h2 : (N : ℚ) + 1 ≤ (((((N / 60 : ℕ) : ℤ) : ℚ)) + 1) * 60 := by
      exact_mod_cast (by omega : N + 1 ≤ (N / 60 + 1) * 60)
    constructor
    · rw [le_div_iff₀ (by norm_num : (0 : ℚ) < 60)]
      linarith
    · rw [div_lt_iff₀ (by norm_num : (0 : ℚ) < 60)]
      linarith
  have hfl3600 : ⌊t / (60 * 60)⌋ = ((N / 3600 : ℕ) : ℤ) := by
    rw [Int.floor_eq_iff]
    have h1 : ((((N / 3600 : ℕ) : ℤ) : ℚ)) * (60 * 60) ≤ (N : ℚ) := by
      exact_mod_cast (by omega : N / 3600 * (60 * 60) ≤ N)
    have h2 : (N : ℚ) + 1 ≤ (((((N / 3600 : ℕ) : ℤ) : ℚ)) + 1) * (60 * 60) := by
      exact_mod_cast (by omega : N + 1 ≤ (N / 3600 + 1) * (60 * 60))
    constructor
    · rw [le_div_iff₀ (by norm_num : (0 : ℚ) < 60 * 60)]
      linarith
    · rw [div_lt_iff₀ (by norm_num : (0 : ℚ) < 60 * 60)]
      linarith
  have hhours : pyTrunc (t / (60 * 60)) = ((N / 3600 : ℕ) : ℤ) := by
    unfold pyTrunc
    rw [if_pos (div_nonneg ht (by norm_num)), hfl3600]
  have hmin : pyTrunc (t / 60) % 60 = ((N / 60 % 60 : ℕ) : ℤ) := by
    unfold pyTrunc
    rw [if_pos (div_nonneg ht (by norm_num)), hfl60]
    push_cast
    rfl
  have hsec : pyTrunc (pyFloatMod t 60) = ((N % 60 : ℕ) : ℤ) := by
    unfold pyFloatMod pyTrunc
    rw [hfl60]
    have hnn : 0 ≤ t - 60 * (((N / 60 : ℕ) : ℤ) : ℚ) := by
      have h1 : 60 * ((((N / 60 : ℕ) : ℤ)) : ℚ) ≤ (N : ℚ) := by
        exact_mod_cast (by omega : 60 * (N / 60) ≤ N)
      linarith
    rw [if_pos hnn]
    rw [show t - 60 * (((N / 60 : ℕ) : ℤ) : ℚ) = t - (((60 * (N / 60) : ℕ) : ℤ) : ℚ) by
      push_cast; ring]
    rw [Int.floor_sub_int, hNZ]
    push_cast
    omega
  have htr : pyTrunc t = (N : ℤ) := by
    unfold pyTrunc
    rw [if_pos ht]
    exact hNZ
  have hfnn : 0 ≤ t - (N : ℚ) := by linarith
  have hflt : t - (N : ℚ) < 1 := by linarith
  have hmsval : pyTrunc ((t - (pyTrunc t : ℚ)) * 100) = ⌊(t - (N : ℚ)) * 100⌋ := by
    rw [htr]
    unfold pyTrunc
    rw [if_pos (by push_cast; nlinarith)]
    push_cast
    rfl
  have hC0 : 0 ≤ ⌊(t - (N : ℚ)) * 100⌋ := Int.floor_nonneg.mpr (by nlinarith)
  have hC99 : ⌊(t - (N : ℚ)) * 100⌋ < 100 := by
    rw [Int.floor_lt]
    push_cast
    nlinarith
  have hCle : ((⌊(t - (N : ℚ)) * 100⌋ : ℤ) : ℚ) ≤ (t - (N : ℚ)) * 100 := Int.floor_le _
  have hClt : (t - (N : ℚ)) * 100 < ((⌊(t - (N : ℚ)) * 100⌋ : ℤ) : ℚ) + 1 :=
    Int.lt_floor_add_one _
  have hCtoNat : ((⌊(t - (N : ℚ)) * 100⌋.toNat : ℕ) : ℚ) =
      ((⌊(t - (N : ℚ)) * 100⌋ : ℤ) : ℚ) := by
    exact_mod_cast congrArg (fun z : ℤ => (z : ℚ)) (Int.toNat_of_nonneg hC0)
  have hC100 : ⌊(t - (N : ℚ)) * 100⌋.toNat < 100 := by omega
  have heq : format_time_from_seconds t =
      pad2 (N / 3600) ++ ':' :: (pad2 (N / 60 % 60) ++ ':' ::
        (pad2 (N % 60) ++ '.' :: pad2 ⌊(t - (N : ℚ)) * 100⌋.toNat)) := by
    simp only [format_time_from_seconds]
    rw [hhours, hmin, hsec, hmsval]
    rw [intFormat02_of_nonneg _ (Int.natCast_nonneg _),
      intFormat02_of_nonneg _ (Int.natCast_nonneg _),
      intFormat02_of_nonneg _ (Int.natCast_nonneg _),
      intFormat02_of_nonneg _ hC0]
    simp only [Int.toNat_natCast, List.append_assoc, List.cons_append]
  rw [heq, timestamp_of_format_fields (N / 3600) (N / 60 % 60) (N % 60)
    ⌊(t - (N : ℚ)) * 100⌋.toNat hC100]
  refine ⟨_, rfl, ?_⟩
  have hid : ((N % 60 : ℕ) : ℚ) + ((N / 60 % 60 : ℕ) : ℚ) * 60 +
      ((N / 3600 : ℕ) : ℚ) * 60 * 60 = (N : ℚ) := by
    exact_mod_cast (by omega : N % 60 + N / 60 % 60 * 60 + N / 3600 * 60 * 60 = N)
  rw [abs_le]
  constructor
  · linarith [hCtoNat, hCle, hClt, hid]
  · linarith [hCtoNat, hCle, hClt, hid]

/-- Witness for C9 at the concrete timestamp `t = 3723.25`. -/
theorem c9_parse_format_roundtrip_witness :
    ∃ r, timestamp_to_seconds (format_time_from_seconds (14893 / 4)) = some r ∧
      |r - 14893 / 4| ≤ 1 / 100 :=
  c9_parse_format_roundtrip (14893 / 4) (by norm_num)

/-
Lemmas about the track clusterer.
-/

theorem zip_map_eq_gapsFrom : ∀ (l : List (ℚ × ℚ)) (b : ℚ × ℚ),
    (((b :: l).zip l).map (fun x => x.2.1 - x.1.2)) = gapsFrom b.2 l := by
  intro l
  induction l with
  | nil => intro b; rfl
  | cons b2 l' ih =>
    intro b
    simp only [List.zip_cons_cons, List.map_cons, gapsFrom]
    rw [ih b2]

theorem gapsFrom_sum_nonneg : ∀ (l : List (ℚ × ℚ)) (e : ℚ), SortedFrom e l →
    0 ≤ (gapsFrom e l).sum := by
  intro l
  induction l with
  | nil => intro e _; simp [gapsFrom]
  | cons b l' ih =>
    intro e hs
    obtain ⟨h1, _, h3⟩ := hs
    simp only [gapsFrom, List.sum_cons]
    have := ih b.2 h3
    linarith

theorem average_nonneg (b0 : ℚ × ℚ) (rest : List (ℚ × ℚ))
    (hb : b0.1 ≤ b0.2) (hs : SortedFrom b0.2 rest) :
    0 ≤ average_midsound_silence (b0 :: rest) := by
  unfold average_midsound_silence
  rw [show (b0 :: rest).tail = rest from rfl, zip_map_eq_gapsFrom rest b0]
  exact div_nonneg (gapsFrom_sum_nonneg rest b0.2 hs) (by positivity)

theorem contig_snoc {a c m : ℚ} : ∀ {l : List (ℚ × ℚ)}, ContigFrom a l c →
    ContigFrom a (l ++ [(c, m)]) m := by
  intro l
  induction l generalizing a with
  | nil => intro h; exact ⟨h.symm, rfl⟩
  | cons b l' ih => intro h; exact ⟨h.1, ih h.2⟩

theorem contig_getLast {a c : ℚ} : ∀ {l : List (ℚ × ℚ)} (h : ContigFrom a l c)
    (hne : l ≠ []), (l.getLast hne).2 = c := by
  intro l
  induction l generalizing a with
  | nil => intro h hne; exact absurd rfl hne
  | cons b l' ih =>
    intro h hne
    cases l' with
    | nil => exact h.2
    | cons b2 l'' =>
      rw [List.getLast_cons (List.cons_ne_nil b2 l'')]
      exact ih h.2 (List.cons_ne_nil b2 l'')

theorem tloop_invariant (thr : ℚ) (hthr : 0 ≤ thr) :
    ∀ (l : List (ℚ × ℚ)) (st : TState) (a : ℚ),
      SortedFrom st.track_end l →
      ContigFrom a st.bounds st.track_start →
      st.track_start ≤ st.track_end →
      (st.bounds ≠ [] → st.track_start < st.track_end) →
      ContigFrom a (l.foldl (tstep thr) st).bounds (l.foldl (tstep thr) st).track_start ∧
      (l.foldl (tstep thr) st).track_start ≤ (l.foldl (tstep thr) st).track_end ∧
      ((l.foldl (tstep thr) st).bounds ≠ [] →
        (l.foldl (tstep thr) st).track_start < (l.foldl (tstep thr) st).track_end) ∧
      (l.foldl (tstep thr) st).track_end = lastEnd st.track_end l ∧
      (l.foldl (tstep thr) st).bounds.length =
        st.bounds.length + (gapsFrom st.track_end l).countP (fun g => decide (thr < g)) := by
  intro l
  induction l with
  | nil =>
    intro st a _ hc hle hstrict
    refine ⟨hc, hle, hstrict, rfl, ?_⟩
    simp [gapsFrom]
  | cons b l' ih =>
    intro st a hs hc hle hstrict
    obtain ⟨hs1, hs2, hs3⟩ := hs
    rw [List.foldl_cons]
    by_cases hsp : thr < b.1 - st.track_end
    · have hgap : 0 < b.1 - st.track_end := lt_of_le_of_lt hthr hsp
      have hstep : tstep thr st b =
          ⟨st.bounds ++ [(st.track_start, st.track_end + (b.1 - st.track_end) / 2)],
            b.1 - (b.1 - st.track_end) / 2, b.2⟩ := by
        simp only [tstep]
        rw [if_pos hsp]
      rw [hstep]
      have hmid : st.track_end + (b.1 - st.track_end) / 2 =
          b.1 - (b.1 - st.track_end) / 2 := by ring
      obtain ⟨c1, c2, c3, c4, c5⟩ := ih
        ⟨st.bounds ++ [(st.track_start, st.track_end + (b.1 - st.track_end) / 2)],
          b.1 - (b.1 - st.track_end) / 2, b.2⟩ a
        hs3
        (by rw [show (⟨st.bounds ++ [(st.track_start, st.track_end + (b.1 - st.track_end) / 2)],
              b.1 - (b.1 - st.track_end) / 2, b.2⟩ : TState).track_start = b.1 - (b.1 - st.track_end) / 2 from rfl]
            rw [← hmid]
            exact contig_snoc hc)
        (by show b.1 - (b.1 - st.track_end) / 2 ≤ b.2; linarith)
        (fun _ => by show b.1 - (b.1 - st.track_end) / 2 < b.2; linarith)
      refine ⟨c1, c2, c3, ?_, ?_⟩
      · rw [c4]; rfl
      · rw [c5]
        simp only [gapsFrom, List.countP_cons, List.length_append, List.length_singleton,
          decide_eq_true_eq]
        rw [if_pos hsp]
        omega
    · have hstep : tstep thr st b = ⟨st.bounds, st.track_start, b.2⟩ := by
        simp only [tstep]
        rw [if_neg hsp]
      rw [hstep]
      obtain ⟨c1, c2, c3, c4, c5⟩ := ih ⟨st.bounds, st.track_start, b.2⟩ a
        hs3
        hc
        (by show st.track_start ≤ b.2; linarith)
        (fun h => by
          have := hstrict h
          show st.track_start < b.2
          linarith)
      refine ⟨c1, c2, c3, ?_, ?_⟩
      · rw [c4]; rfl
      · rw [c5]
        simp only [gapsFrom, List.countP_cons, decide_eq_true_eq]
        rw [if_neg hsp]
        omega

theorem find_tracks_characterization (b0 : ℚ × ℚ) (rest : List (ℚ × ℚ)) (m : ℚ)
    (hb : b0.1 ≤ b0.2) (hs : SortedFrom b0.2 rest) (hm : 0 ≤ m) :
    ((gapsFrom b0.2 rest).countP
        (fun g => decide (average_midsound_silence (b0 :: rest) * m < g)) = 0 →
      find_tracks (b0 :: rest) m = .ok none) ∧
    (0 < (gapsFrom b0.2 rest).countP
        (fun g => decide (average_midsound_silence (b0 :: rest) * m < g)) →
      ∃ l, find_tracks (b0 :: rest) m = .ok (some l) ∧
        l.length = (gapsFrom b0.2 rest).countP
          (fun g => decide (average_midsound_silence (b0 :: rest) * m < g)) + 1 ∧
        ContigFrom b0.1 l (lastEnd b0.2 rest)) := by
  have hthr : 0 ≤ average_midsound_silence (b0 :: rest) * m :=
    mul_nonneg (average_nonneg b0 rest hb hs) hm
  have hstep0 : tstep (average_midsound_silence (b0 :: rest) * m) ⟨[], b0.1, b0.2⟩ b0 =
      ⟨[], b0.1, b0.2⟩ := by
    simp only [tstep]
    rw [if_neg (not_lt.mpr (by linarith : b0.1 - b0.2 ≤
      average_midsound_silence (b0 :: rest) * m))]
  obtain ⟨c1, c2, c3, c4, c5⟩ := tloop_invariant
    (average_midsound_silence (b0 :: rest) * m) hthr rest ⟨[], b0.1, b0.2⟩ b0.1
    hs rfl hb (fun h => absurd rfl h)
  simp only [List.length_nil, Nat.zero_add] at c5
  constructor
  · intro hk0
    have hnil : (rest.foldl (tstep (average_midsound_silence (b0 :: rest) * m))
        ⟨[], b0.1, b0.2⟩).bounds = [] := by
      apply List.length_eq_zero.mp
      rw [c5, hk0]
    simp only [find_tracks, List.foldl_cons, hstep0]
    rw [dif_pos hnil]
  · intro hkpos
    have hne : (rest.foldl (tstep (average_midsound_silence (b0 :: rest) * m))
        ⟨[], b0.1, b0.2⟩).bounds ≠ [] := by
      intro hnil
      rw [hnil] at c5
      simp only [List.length_nil] at c5
      omega
    have hlast := contig_getLast c1 hne
    have hlt := c3 hne
    simp only [find_tracks, List.foldl_cons, hstep0]
    rw [dif_neg hne, if_pos (by rw [hlast]; exact hlt)]
    refine ⟨_, rfl, ?_, ?_⟩
    · rw [List.length_append, c5]
      simp
    · rw [hlast, ← c4]
      exact contig_snoc c1

/-- C7: for a fixed well-formed sound-interval sequence and multipliers
`0 ≤ m1 ≤ m2`, raising the multiplier never increases the number of tracks
produced by `find_tracks` (an error or a `None` result yields zero tracks). -/
theorem c7_multiplier_monotone (sb : List (ℚ × ℚ)) (m1 m2 : ℚ)
    (hw : WfIntervals sb) (h0 : 0 ≤ m1) (h12 : m1 ≤ m2) :
    numTracks (find_tracks sb m2) ≤ numTracks (find_tracks sb m1) := by
  cases sb with
  | nil => exact le_refl _
  | cons b0 rest =>
    obtain ⟨hb, hs⟩ := hw
    have havg := average_nonneg b0 rest hb hs
    have hcount : (gapsFrom b0.2 rest).countP
        (fun g => decide (average_midsound_silence (b0 :: rest) * m2 < g)) ≤
        (gapsFrom b0.2 rest).countP
        (fun g => decide (average_midsound_silence (b0 :: rest) * m1 < g)) := by
      apply List.countP_mono_left
      intro g _ hg
      simp only [decide_eq_true_eq] at hg ⊢
      have : average_midsound_silence (b0 :: rest) * m1 ≤
          average_midsound_silence (b0 :: rest) * m2 :=
        mul_le_mul_of_nonneg_left h12 havg
      linarith
    obtain ⟨z1, s1⟩ := find_tracks_characterization b0 rest m1 hb hs h0
    obtain ⟨z2, s2⟩ := find_tracks_characterization b0 rest m2 hb hs (le_trans h0 h12)
    by_cases hk2 : (gapsFrom b0.2 rest).countP
        (fun g => decide (average_midsound_silence (b0 :: rest) * m2 < g)) = 0
    · rw [z2 hk2]
      exact Nat.zero_le _
    · have hk1 : (gapsFrom b0.2 rest).countP
          (fun g => decide (average_midsound_silence (b0 :: rest) * m1 < g)) ≠ 0 := by
        omega
      obtain ⟨l2, e2, len2, _⟩ := s2 (Nat.pos_of_ne_zero hk2)
      obtain ⟨l1, e1, len1, _⟩ := s1 (Nat.pos_of_ne_zero hk1)
      rw [e1, e2]
      show l2.length ≤ l1.length
      omega

/-- Witness for C7 on the three intervals of the spec's Scenario C with
multipliers 1 and 4. -/
theorem c7_multiplier_monotone_witness :
    numTracks (find_tracks [((0 : ℚ), (10 : ℚ)), (15, 20), (101/5, 25)] 4) ≤
      numTracks (find_tracks [((0 : ℚ), (10 : ℚ)), (15, 20), (101/5, 25)] 1) :=
  c7_multiplier_monotone [((0 : ℚ), (10 : ℚ)), (15, 20), (101/5, 25)] 1 4
    (by decide) (by norm_num) (by norm_num)

/-- C8: whenever `find_tracks` on a well-formed interval sequence (with a
nonnegative multiplier) produces a track list, the tracks are contiguous —
each track starts where the previous one ended — starting at the first
interval's start and ending at the last interval's end. -/
theorem c8_tracks_contiguous_cover (b0 : ℚ × ℚ) (rest : List (ℚ × ℚ)) (m : ℚ)
    (l : List (ℚ × ℚ)) (hw : WfIntervals (b0 :: rest)) (hm : 0 ≤ m)
    (hres : find_tracks (b0 :: rest) m = .ok (some l)) :
    ContigFrom b0.1 l (lastEnd b0.2 rest) := by
  obtain ⟨hb, hs⟩ := hw
  obtain ⟨z, s⟩ := find_tracks_characterization b0 rest m hb hs hm
  rcases Nat.eq_zero_or_pos ((gapsFrom b0.2 rest).countP
      (fun g => decide (average_midsound_silence (b0 :: rest) * m < g))) with hk | hk
  · rw [z hk] at hres
    simp at hres
  · obtain ⟨l', e', _, contig'⟩ := s hk
    rw [e'] at hres
    simp only [Except.ok.injEq, Option.some.injEq] at hres
    rw [← hres]
    exact contig'

/-- Witness for C8 on the spec's Scenario C input with multiplier 1. -/
theorem c8_tracks_contiguous_cover_witness :
    ContigFrom ((0 : ℚ), (10 : ℚ)).1 [((0 : ℚ), 25/2), (25/2, 25)]
      (lastEnd ((0 : ℚ), (10 : ℚ)).2 [((15 : ℚ), (20 : ℚ)), (101/5, 25)]) :=
  c8_tracks_contiguous_cover (0, 10) [(15, 20), (101/5, 25)] 1
    [(0, 25/2), (25/2, 25)] (by decide) (by norm_num) (by decide)

/-- C10: on a well-formed interval sequence with nonnegative multiplier,
`find_tracks` returns Python `None` exactly when no consecutive gap strictly
exceeds the threshold `average_midsound_silence * multiplier`; and every
returned track list has at least two entries. -/
theorem c10_none_iff_no_split (b0 : ℚ × ℚ) (rest : List (ℚ × ℚ)) (m : ℚ)
    (hw : WfIntervals (b0 :: rest)) (hm : 0 ≤ m) :
    (find_tracks (b0 :: rest) m = .ok none ↔
      ∀ g ∈ gapsFrom b0.2 rest, g ≤ average_midsound_silence (b0 :: rest) * m) ∧
    (∀ l, find_tracks (b0 :: rest) m = .ok (some l) → 2 ≤ l.length) := by
  obtain ⟨hb, hs⟩ := hw
  obtain ⟨z, s⟩ := find_tracks_characterization b0 rest m hb hs hm
  have hcount_iff : (gapsFrom b0.2 rest).countP
      (fun g => decide (average_midsound_silence (b0 :: rest) * m < g)) = 0 ↔
      ∀ g ∈ gapsFrom b0.2 rest, g ≤ average_midsound_silence (b0 :: rest) * m := by
    rw [List.countP_eq_zero]
    simp only [decide_eq_true_eq, not_lt]
  constructor
  · constructor
    · intro hnone
      rcases Nat.eq_zero_or_pos ((gapsFrom b0.2 rest).countP
          (fun g => decide (average_midsound_silence (b0 :: rest) * m < g))) with hk | hk
      · exact hcount_iff.mp hk
      · obtain ⟨l, e, _, _⟩ := s hk
        rw [e] at hnone
        simp at hnone
    · intro hall
      exact z (hcount_iff.mpr hall)
  · intro l hres
    rcases Nat.eq_zero_or_pos ((gapsFrom b0.2 rest).countP
        (fun g => decide (average_midsound_silence (b0 :: rest) * m < g))) with hk | hk
    · rw [z hk] at hres
      simp at hres
    · obtain ⟨l', e', len', _⟩ := s hk
      rw [e'] at hres
      simp only [Except.ok.injEq, Option.some.injEq] at hres
      rw [← hres]
      omega

/-- Witness for C10 on the spec's Scenario C input with multiplier 1. -/
theorem c10_none_iff_no_split_witness :
    (find_tracks [((0 : ℚ), (10 : ℚ)), (15, 20), (101/5, 25)] 1 = .ok none ↔
      ∀ g ∈ gapsFrom ((0 : ℚ), (10 : ℚ)).2 [((15 : ℚ), (20 : ℚ)), (101/5, 25)],
        g ≤ average_midsound_silence [((0 : ℚ), (10 : ℚ)), (15, 20), (101/5, 25)] * 1) ∧
    (∀ l, find_tracks [((0 : ℚ), (10 : ℚ)), (15, 20), (101/5, 25)] 1 = .ok (some l) →
      2 ≤ l.length) :=
  c10_none_iff_no_split (0, 10) [(15, 20), (101/5, 25)] 1 (by decide) (by norm_num)

/-- C5 (amended): the Clusterer does not raise `InsufficientData`: with zero
sound intervals `find_tracks` fails with a `ZeroDivisionError` (the gap sum
is divided by the length), and with exactly one proper sound interval it
returns Python `None` (no track list) without raising any error. -/
theorem c5_few_intervals (b : ℚ × ℚ) (m m' : ℚ) (hb : b.1 ≤ b.2) :
    find_tracks ([] : List (ℚ × ℚ)) m = .error .zeroDivisionError ∧
    find_tracks [b] m' = .ok none := by
  constructor
  · rfl
  · have havg : average_midsound_silence [b] = 0 := by
      simp [average_midsound_silence]
    have hstep : tstep (average_midsound_silence [b] * m') ⟨[], b.1, b.2⟩ b =
        ⟨[], b.1, b.2⟩ := by
      simp only [tstep]
      rw [if_neg (not_lt.mpr (by rw [havg, zero_mul]; linarith))]
    simp only [find_tracks, List.foldl_cons, List.foldl_nil, hstep]
    simp

/-- Witness for C5 at the empty sequence and at the single interval (0, 10). -/
theorem c5_few_intervals_witness :
    find_tracks ([] : List (ℚ × ℚ)) 1 = .error .zeroDivisionError ∧
    find_tracks [((0 : ℚ), (10 : ℚ))] 1 = .ok none :=
  c5_few_intervals (0, 10) 1 1 (by norm_num)

/-- Counterexample to C5 as stated: a single sound interval does not make the
Clusterer fail — `find_tracks [(0, 10)] 1` returns successfully (with `None`),
not an error of any kind. -/
theorem c5_counterexample :
    find_tracks [((0 : ℚ), (10 : ℚ))] 1 = .ok none ∧
    (find_tracks [((0 : ℚ), (10 : ℚ))] 1).isOk = true := by
  constructor <;> decide

/-- C1 (amended): the Clusterer's adaptive threshold base divides the gap sum
by the number of intervals, not by the number of consecutive pairs; on the
intervals `[(0, 10), (10.4, 20)]` with multiplier 1 the threshold is 0.2, the
0.4 gap exceeds it, and the result is the two tracks `[(0, 10.2), (10.2, 20)]`. -/
theorem c1_threshold_and_scenario_b :
    (∀ (b0 : ℚ × ℚ) (rest : List (ℚ × ℚ)),
      average_midsound_silence (b0 :: rest) =
        (gapsFrom b0.2 rest).sum / ((rest.length : ℚ) + 1)) ∧
    average_midsound_silence [((0 : ℚ), 10), (52/5, 20)] = 1/5 ∧
    find_tracks [((0 : ℚ), 10), (52/5, 20)] 1 = .ok (some [(0, 51/5), (51/5, 20)]) := by
  refine ⟨?_, by decide, by decide⟩
  intro b0 rest
  unfold average_midsound_silence
  rw [show (b0 :: rest).tail = rest from rfl, zip_map_eq_gapsFrom rest b0,
    List.length_cons]
  push_cast
  ring

/-- Counterexample to C1 as stated: on `[(0, 10), (10.4, 20)]` the computed
threshold base is 0.2 (the 0.4 gap sum divided by the interval count 2), not
the 0.4 mean over the single pair, and with multiplier 1 the Clusterer splits,
returning `[(0, 10.2), (10.2, 20)]` rather than the single merged track. -/
theorem c1_counterexample :
    average_midsound_silence [((0 : ℚ), 10), (52/5, 20)] = 1/5 ∧
    (1/5 : ℚ) ≠ 2/5 ∧
    find_tracks [((0 : ℚ), 10), (52/5, 20)] 1 ≠ .ok (some [(0, 20)]) := by
  refine ⟨by decide, by norm_num, by decide⟩

/-
Lemmas about the reconciliation loop.
-/

theorem rstep_bounds (n : ℕ) (fe : ℚ) (st : RecState) (i : ℕ) (ev : SilenceEvent) :
    (rstep n fe st i ev).bounds = st.bounds ++
      (if i = 0 then [((some 0 : Option ℚ), (startField ev).getD 0)]
       else if i = n - 1 then
         (if endField ev = none then [(st.prevEnd, fe)] else [])
       else
         (if pyTruthy (startField ev) = true then
           [(st.prevEnd, (startField ev).getD 0)]
         else [])) := by
  unfold rstep
  split_ifs <;> simp

theorem rstep_prevEnd (n : ℕ) (fe : ℚ) (st : RecState) (i : ℕ) (ev : SilenceEvent) :
    (rstep n fe st i ev).prevEnd =
      (if updatesPrevEnd ev = true then endField ev else st.prevEnd) := by
  unfold rstep updatesPrevEnd
  split_ifs <;> simp_all

theorem rloop_append (n : ℕ) (fe : ℚ) :
    ∀ (xs ys : List SilenceEvent) (i : ℕ) (st : RecState),
      rloop n fe i st (xs ++ ys) =
        rloop n fe (i + xs.length) (rloop n fe i st xs) ys := by
  intro xs
  induction xs with
  | nil => intro ys i st; simp [rloop]
  | cons e xs' ih =>
    intro ys i st
    simp only [List.cons_append, rloop, List.length_cons, List.append_eq]
    rw [ih]
    have hidx : i + (xs'.length + 1) = (i + 1) + xs'.length := by omega
    rw [hidx]

theorem rloop_bounds_grow (n : ℕ) (fe : ℚ) :
    ∀ (l : List SilenceEvent) (i : ℕ) (st : RecState),
      ∃ ex, (rloop n fe i st l).bounds = st.bounds ++ ex := by
  intro l
  induction l with
  | nil => intro i st; exact ⟨[], by simp [rloop]⟩
  | cons e l' ih =>
    intro i st
    obtain ⟨ex1, h1⟩ := ih (i + 1) (rstep n fe st i e)
    refine ⟨(if i = 0 then [((some 0 : Option ℚ), (startField e).getD 0)]
       else if i = n - 1 then (if endField e = none then [(st.prevEnd, fe)] else [])
       else (if pyTruthy (startField e) = true then
         [(st.prevEnd, (startField e).getD 0)] else [])) ++ ex1, ?_⟩
    show (rloop n fe (i + 1) (rstep n fe st i e) l').bounds = st.bounds ++ _
    rw [h1, rstep_bounds, List.append_assoc]

theorem rloop_prevEnd_of_no_updates (n : ℕ) (fe : ℚ) :
    ∀ (l : List SilenceEvent) (i : ℕ) (st : RecState),
      (∀ e ∈ l, updatesPrevEnd e = false) →
      (rloop n fe i st l).prevEnd = st.prevEnd := by
  intro l
  induction l with
  | nil => intro i st _; rfl
  | cons e l' ih =>
    intro i st hall
    show (rloop n fe (i + 1) (rstep n fe st i e) l').prevEnd = st.prevEnd
    rw [ih (i + 1) _ (fun x hx => hall x (List.mem_cons_of_mem e hx)),
      rstep_prevEnd]
    rw [hall e (List.mem_cons_self e l')]
    simp

/-- C2 (amended): for a well-formed event sequence with at least two events,
the Reconciler appends a trailing interval `(previous_silence_end, duration)`
exactly when the LAST event is a `Start` event; when the last event is an
`End` event no trailing interval is emitted (the source keeps the sound
boundaries computed from the earlier events unchanged). -/
theorem c2_trailing_interval (t0 fe : ℚ) (mid : List SilenceEvent)
    (lastEv : SilenceEvent) :
    reconcile (.start t0 :: (mid ++ [lastEv])) fe =
      .ok ((rloop (mid.length + 2) fe 0 ⟨[], none, none⟩ (.start t0 :: mid)).bounds ++
        (match lastEv with
         | .start _ =>
           [((rloop (mid.length + 2) fe 0 ⟨[], none, none⟩
               (.start t0 :: mid)).prevEnd, fe)]
         | .end_ _ _ => [])) := by
  simp only [reconcile]
  rw [if_neg (by simp [startField])]
  have hn : (SilenceEvent.start t0 :: (mid ++ [lastEv])).length = mid.length + 2 := by
    simp
  rw [hn]
  rw [show SilenceEvent.start t0 :: (mid ++ [lastEv]) =
    (SilenceEvent.start t0 :: mid) ++ [lastEv] from rfl]
  rw [rloop_append (mid.length + 2) fe (SilenceEvent.start t0 :: mid) [lastEv] 0]
  simp only [rloop, List.length_cons]
  rw [rstep_bounds]
  rw [if_neg (by omega), if_pos (by omega)]
  cases lastEv with
  | start t => simp [endField]
  | end_ t d => simp [endField]

/-- Counterexample to C2 as stated: for the events
`[Start 1.0, End 1.5 0.5]` (last event an `End`), the Reconciler emits no
trailing interval at all — the result is just `[(0, 1.0)]`, whose last
element is not the trailing span `(1.5, 180)` the claim requires. -/
theorem c2_counterexample :
    reconcile [SilenceEvent.start 1, SilenceEvent.end_ (3/2) (1/2)] 180 =
      .ok [(some 0, 1)] ∧
    ([((some 0 : Option ℚ), (1 : ℚ))].getLast? ≠
      some ((some (3/2) : Option ℚ), (180 : ℚ))) := by
  constructor <;> decide

/-- C6 (amended): the Reconciler does not fail on an interior `Start` event
that arrives before any `End` event has set `previous_silence_end`: it
returns successfully and the emitted boundary list contains the interval
`(None, t)` whose start is the unset `previous_silence_end`. -/
theorem c6_unset_prev_end (t0 t d : ℚ) (mid rest' : List SilenceEvent)
    (hmid : ∀ e ∈ mid, updatesPrevEnd e = false) (ht : t ≠ 0) (hne : rest' ≠ []) :
    ∃ bs, reconcile (.start t0 :: (mid ++ (.start t :: rest'))) d = .ok bs ∧
      ((none : Option ℚ), t) ∈ bs := by
  refine ⟨(rloop (SilenceEvent.start t0 :: (mid ++ (SilenceEvent.start t :: rest'))).length
      d 0 ⟨[], none, none⟩
      (SilenceEvent.start t0 :: (mid ++ (SilenceEvent.start t :: rest')))).bounds, ?_, ?_⟩
  · simp only [reconcile]
    rw [if_neg (by simp [startField])]
  · rw [show SilenceEvent.start t0 :: (mid ++ (SilenceEvent.start t :: rest')) =
      (SilenceEvent.start t0 :: mid) ++ (SilenceEvent.start t :: rest') from rfl]
    rw [rloop_append]
    set n := ((SilenceEvent.start t0 :: mid) ++ (SilenceEvent.start t :: rest')).length
      with hnd
    set ST1 := rloop n d 0 ⟨[], none, none⟩ (SilenceEvent.start t0 :: mid) with hST1
    rw [show rloop n d (0 + (SilenceEvent.start t0 :: mid).length) ST1
        (SilenceEvent.start t :: rest') =
      rloop n d (0 + (SilenceEvent.start t0 :: mid).length + 1)
        (rstep n d ST1 (0 + (SilenceEvent.start t0 :: mid).length)
          (SilenceEvent.start t)) rest' from rfl]
    obtain ⟨ex, hex⟩ := rloop_bounds_grow n d rest'
      (0 + (SilenceEvent.start t0 :: mid).length + 1)
      (rstep n d ST1 (0 + (SilenceEvent.start t0 :: mid).length) (SilenceEvent.start t))
    rw [hex, rstep_bounds]
    have hlen1 : (SilenceEvent.start t0 :: mid).length = mid.length + 1 := by simp
    have hlenn : n = mid.length + rest'.length + 2 := by
      rw [hnd]
      simp
      omega
    have hrpos : 0 < rest'.length := List.length_pos.mpr hne
    rw [if_neg (by simp), if_neg (by rw [hlen1, hlenn]; omega),
      if_pos (by simp [startField, pyTruthy, ht])]
    have hpe : ST1.prevEnd = none := by
      rw [hST1]
      apply rloop_prevEnd_of_no_updates
      intro e he
      rcases List.mem_cons.mp he with h | h
      · rw [h]; simp [updatesPrevEnd, startField, endField, pyTruthy]
      · exact hmid e h
    rw [hpe]
    simp [startField, List.mem_append]

/-- Witness for C6: events `[Start 1, Start 2, End 3 1]` with file end 10. -/
theorem c6_unset_prev_end_witness :
    ∃ bs, reconcile (.start 1 :: ([] ++ (.start 2 :: [SilenceEvent.end_ 3 1]))) 10 =
      .ok bs ∧ ((none : Option ℚ), (2 : ℚ)) ∈ bs :=
  c6_unset_prev_end 1 2 10 [] [SilenceEvent.end_ 3 1] (by simp) (by norm_num)
    (by simp)

/-- Counterexample to C6 as stated: on `[Start 1, Start 2, End 3 1]` the
interior `Start 2` consumes the unset `previous_silence_end`, yet the
Reconciler raises no error at all — it returns `.ok` with the malformed
interval `(None, 2)` in its output. -/
theorem c6_counterexample :
    reconcile [SilenceEvent.start 1, SilenceEvent.start 2, SilenceEvent.end_ 3 1] 10 =
      .ok [(some 0, 1), (none, 2)] := by
  decide

/-- C3 (amended): for the concrete report with duration header 00:03:00.00,
one `silence_start: 1.0` and one `silence_end: 1.5 | silence_duration: 0.5`,
parsing plus reconciliation produces exactly `[(0, 1.0)]`: the trailing sound
interval `(1.5, 180)` is NOT emitted, because the last event is an `End`
event and the source only emits the trailing interval for a final `Start`. -/
theorem c3_scenario_a :
    get_sound_boundaries (("Duration: 00:03:00.00, start: 0.000000, bitrate: 147 kb/s\n[silencedetect @ 0x1] silence_start: 1.0\n[silencedetect @ 0x1] silence_end: 1.5 | silence_duration: 0.5").data) =
      .ok [(some 0, 1)] := by
  decide

/-- Counterexample to C3 as stated: on the same concrete report the pipeline
does not produce the claimed pair of intervals `[(0, 1.0), (1.5, 180.0)]`. -/
theorem c3_counterexample :
    get_sound_boundaries (("Duration: 00:03:00.00, start: 0.000000, bitrate: 147 kb/s\n[silencedetect @ 0x1] silence_start: 1.0\n[silencedetect @ 0x1] silence_end: 1.5 | silence_duration: 0.5").data) ≠
      .ok [((some 0 : Option ℚ), (1 : ℚ)), (some (3/2), 180)] := by
  decide

/-
Lemmas about the report line loop.
-/

theorem duration_not_silencedetect {s : List Char}
    (h1 : isDurationLine s = true)
    (h2 : (("[silencedetect").data).isPrefixOf s = true) : False := by
  unfold isDurationLine at h1
  rw [ List.isPrefixOf_iff_prefix] at h1 h2
  obtain ⟨u, hu⟩ := h1
  obtain ⟨v, hv⟩ := h2
  have e1 : ((("Duration").data) ++ u).head? = some 'D' := rfl
  have e2 : ((("[silencedetect").data) ++ v).head? = some '[' := rfl
  rw [hu] at e1
  rw [hv] at e2
  rw [e1] at e2
  exact absurd e2 (by decide)

theorem processLine_duration (st st' : PState) (raw : List Char)
    (hok : processLine st raw = .ok st')
    (hdur : isDurationLine (pyStrip raw) = true) :
    st'.file_end = durationField (pyStrip raw) := by
  have hnot : (("[silencedetect").data).isPrefixOf (pyStrip raw) = false := by
    cases hsp : (("[silencedetect").data).isPrefixOf (pyStrip raw)
    · rfl
    · exact (duration_not_silencedetect hdur hsp).elim
  simp only [processLine, hnot, hdur, Bool.false_eq_true, if_false, if_true] at hok
  repeat' split at hok
  all_goals
    first
      | (simp only [Except.ok.injEq] at hok; subst hok; simp_all)
      | simp_all

theorem processLine_preserves_file_end (st st' : PState) (raw : List Char)
    (hok : processLine st raw = .ok st')
    (hdur : isDurationLine (pyStrip raw) = false) :
    st'.file_end = st.file_end := by
  simp only [processLine] at hok
  repeat' split at hok
  all_goals
    first
      | (simp only [Except.ok.injEq] at hok; subst hok; rfl)
      | simp_all

theorem processLines_append (xs ys : List (List Char)) : ∀ st,
    processLines st (xs ++ ys) =
      match processLines st xs with
      | .error e => .error e
      | .ok st1 => processLines st1 ys := by
  induction xs with
  | nil => intro st; rfl
  | cons l xs' ih =>
    intro st
    simp only [List.cons_append, processLines]
    cases processLine st l with
    | error e => rfl
    | ok st1 => exact ih st1

theorem processLines_preserves_file_end :
    ∀ (ls : List (List Char)) (st st' : PState),
      processLines st ls = .ok st' →
      (∀ l ∈ ls, isDurationLine (pyStrip l) = false) →
      st'.file_end = st.file_end := by
  intro ls
  induction ls with
  | nil =>
    intro st st' h _
    simp only [processLines, Except.ok.injEq] at h
    rw [← h]
  | cons l ls' ih =>
    intro st st' h hall
    simp only [processLines] at h
    cases hpl : processLine st l with
    | error e => rw [hpl] at h; simp at h
    | ok st1 =>
      rw [hpl] at h
      rw [ih st1 st' h (fun x hx => hall x (List.mem_cons_of_mem l hx))]
      exact processLine_preserves_file_end st st1 l hpl (hall l (List.mem_cons_self l ls'))

/-- C4 (amended): when a report contains several duration header lines, the
Parser's returned recording duration is the one parsed from the LAST such
line — each later `Duration` line overwrites `file_end`, so earlier
occurrences do not determine the result. -/
theorem c4_last_duration_wins (ls1 : List (List Char)) (dline : List Char)
    (ls2 : List (List Char)) (st' : PState)
    (hok : processLines ⟨[], none, none⟩ (ls1 ++ dline :: ls2) = .ok st')
    (hdur : isDurationLine (pyStrip dline) = true)
    (hnone : ∀ l ∈ ls2, isDurationLine (pyStrip l) = false) :
    st'.file_end = durationField (pyStrip dline) := by
  rw [processLines_append] at hok
  cases h1 : processLines ⟨[], none, none⟩ ls1 with
  | error e => rw [h1] at hok; simp at hok
  | ok st1 =>
    rw [h1] at hok
    simp only [processLines] at hok
    cases h2 : processLine st1 dline with
    | error e => rw [h2] at hok; simp at hok
    | ok st2 =>
      rw [h2] at hok
      rw [processLines_preserves_file_end ls2 st2 st' hok hnone]
      exact processLine_duration st1 st2 dline h2 hdur

/-- Witness for C4: a report of two duration lines (3 minutes then 4 minutes)
parses to a state whose duration is that of the last line. -/
theorem c4_last_duration_wins_witness :
    (⟨[], some 0, some 240⟩ : PState).file_end =
      durationField (pyStrip
        (("Duration: 00:04:00.00, start: 0.000000, bitrate: 147 kb/s").data)) :=
  c4_last_duration_wins
    [(("Duration: 00:03:00.00, start: 0.000000, bitrate: 147 kb/s").data)]
    (("Duration: 00:04:00.00, start: 0.000000, bitrate: 147 kb/s").data)
    [] ⟨[], some 0, some 240⟩ (by decide) (by decide) (by simp)

/-- Counterexample to C4 as stated: with a 00:03:00.00 duration line followed
by a 00:04:00.00 one, the Parser reports 240 seconds (the last line), not the
180 seconds of the first line. -/
theorem c4_counterexample :
    (processLines ⟨[], none, none⟩
      [(("Duration: 00:03:00.00, start: 0.000000, bitrate: 147 kb/s").data),
       (("Duration: 00:04:00.00, start: 0.000000, bitrate: 147 kb/s").data)]).map
      (fun st => st.file_end) = .ok (some 240) ∧ (240 : ℚ) ≠ 180 := by
  constructor
  · decide
  · norm_num
